import Mathlib

unseal Rat.add Rat.mul Rat.inv Rat.sub

/-
Verification of the rolling meta-strategy core (MetaVoteStrategyV2) of the
crypto backtesting notebook: rolling sample buffer, weighted ensemble
prediction, position decisions, and the scheduled retrain / reweight steps.

Modelling conventions:
* prices and predictions are rationals; a missing / NaN price is `none`
  (IEEE NaN propagation is modelled by option arithmetic below);
* a fitted model is an opaque prediction function `List ℚ → ℚ`, and the
  external GPU fitting routine is an opaque parameter `fitAll`;
* the external execution engine is abstracted to the position side it
  reports back (orders placed on one bar are live by the time the next
  bar is processed, which is how the backtesting engine behaves).
-/

/-- Position side reported by the execution engine: flat, long, or short. -/
inductive Pos where
  | Flat
  | Long
  | Short
deriving DecidableEq

/-- A fitted model: an opaque predictor from a feature vector to a scalar. -/
abbrev Mdl := List ℚ → ℚ

/-- The opaque model-fitting capability (fit_models_on_gpu): from a feature
batch and a label batch to a fresh list of named fitted models. -/
abbrev FitFn := List (List ℚ) → List ℚ → List (String × Mdl)

/-- NaN-propagating addition on optional rationals (`none` models IEEE NaN). -/
def oAdd : Option ℚ → Option ℚ → Option ℚ
  | some a, some b => some (a + b)
  | _, _ => none

/-- NaN-propagating multiplication on optional rationals. -/
def oMul : Option ℚ → Option ℚ → Option ℚ
  | some a, some b => some (a * b)
  | _, _ => none

/-- Sum of a list of optional rationals; the empty sum is 0, any NaN term
poisons the whole sum, as with Python float addition. -/
def oSum (l : List (Option ℚ)) : Option ℚ := l.foldr oAdd (some 0)

/-- NaN-propagating addition of a rational constant. -/
def oAddC (x : Option ℚ) (c : ℚ) : Option ℚ := x.map (fun a => a + c)

/-- NaN-propagating reciprocal; the reciprocal of zero is out of the rational
model (it never arises: it is only applied to mae + eps with mae ≥ 0). -/
def oInv : Option ℚ → Option ℚ
  | some a => if a = 0 then none else some a⁻¹
  | none => none

/-- NaN-propagating division, with division by zero likewise modelled as
undefined (it never arises below: the divisor is a sum of positive terms). -/
def oDiv : Option ℚ → Option ℚ → Option ℚ
  | some a, some b => if b = 0 then none else some (a / b)
  | _, _ => none

/-- Comparison z > t where z may be NaN: NaN compares false, as IEEE floats. -/
def qGtB (z : Option ℚ) (t : ℚ) : Bool :=
  match z with
  | some x => decide (t < x)
  | none => false

/-- Comparison z < t where z may be NaN: NaN compares false, as IEEE floats. -/
def qLtB (z : Option ℚ) (t : ℚ) : Bool :=
  match z with
  | some x => decide (x < t)
  | none => false

/-- pandas Series.pct_change over the Close column (missing values are none):
entry 0 is undefined; entry i is (c_i - c_(i-1)) / c_(i-1), undefined when
either price is missing.  A zero previous price, which pandas would map to
IEEE infinity, is likewise modelled as undefined; no scenario below uses a
zero price. -/
def pctChange : List (Option ℚ) → List (Option ℚ)
  | [] => []
  | c :: cs =>
      none :: List.zipWith (fun p q =>
        match p, q with
        | some a, some b => if a = 0 then none else some ((b - a) / a)
        | _, _ => none) (c :: cs) cs

/-- The trailing n elements of a list (numpy slice [-n:], pandas iloc[-n:]). -/
def lastN (n : ℕ) (l : List α) : List α := l.drop (l.length - n)

/-- Appending to a collections.deque with maxlen = cap: the new element goes
to the tail and the head is evicted while the capacity is exceeded. -/
def dequePush (cap : ℕ) (buf : List α) (x : α) : List α :=
  let b := buf ++ [x]
  if cap < b.length then b.drop (b.length - cap) else b

/-- Collect a vector of optional rationals into an optional vector: none as
soon as one entry is missing (NaN), following IEEE NaN contagion. -/
def seqOpt : List (Option ℚ) → Option (List ℚ)
  | [] => some []
  | none :: _ => none
  | some x :: t => (seqOpt t).map (fun xs => x :: xs)

/-- np.mean over a vector of optional rationals: NaN if the vector is empty
or contains a NaN, the arithmetic mean otherwise. -/
def optMean (l : List (Option ℚ)) : Option ℚ :=
  match seqOpt l with
  | some xs => if xs.isEmpty then none else some (xs.sum / (xs.length : ℚ))
  | none => none

/-- Trailing mean absolute error exactly as the source computes it:
np.mean(np.abs(y_hat - rets.values)) where y_hat are the model's predictions
on the trailing buffered feature rows and rets is the trailing slice of the
close-price percent-change series. -/
def maeOf (m : Mdl) (xr : List (List ℚ)) (rets : List (Option ℚ)) : Option ℚ :=
  optMean (List.zipWith (fun x r => r.map (fun rv => |m x - rv|)) xr rets)

/-- Stated from the specification's words, for the refinement comparison in
claim C2: the mean absolute error of the model's predictions on the trailing
buffered feature vectors against the realized labels stored with those same
buffered samples. -/
def maeSpecification (m : Mdl) (xr : List (List ℚ)) (ys : List ℚ) : Option ℚ :=
  optMean (List.zipWith (fun x y => some |m x - y|) xr ys)

/-- The smoothing constant 1e-8 of the inverse-error weighting rule. -/
def eps : ℚ := 1 / 100000000

/-- The unnormalized inverse-error score 1 / (e + eps). -/
def invErr (e : ℚ) : ℚ := (e + eps)⁻¹

/-- The inverse-error weighting rule on plain (NaN-free) error values:
weight_i = invErr err_i / Σ_k invErr err_k. -/
def pureWeights (errs : List ℚ) : List ℚ :=
  errs.map (fun e => invErr e / (errs.map invErr).sum)

/-- MetaVoteStrategyV2._update_weights: recompute the named weights from each
model's trailing MAE against the last 60 close-price percent changes, keeping
the previous weights when the trailing return window is all-NaN or fewer than
60 buffered feature rows exist.  The window length 60 is hardcoded in the
source (iloc[-60:], [-60:], < 60). -/
def updateWeights (models : List (String × Mdl)) (closes : List (Option ℚ))
    (xbuf : List (List ℚ)) (w : List (String × Option ℚ)) :
    List (String × Option ℚ) :=
  let rets := lastN 60 (pctChange closes)
  if rets.all (fun r => r.isNone) then w
  else
    let xr := lastN 60 xbuf
    if xr.length < 60 then w
    else
      let maes := models.map (fun p => (p.1, maeOf p.2 xr rets))
      let total := oSum (maes.map (fun p => oInv (oAddC p.2 eps)))
      maes.map (fun p => (p.1, oDiv (oInv (oAddC p.2 eps)) total))

/-- The configuration surface of build_meta_strategy: neutral threshold,
retrain cadence in bars, reweight cadence in executed trades, and the rolling
buffer capacity. -/
structure Cfg where
  threshold : ℚ
  retrainEvery : ℕ
  reweightEvery : ℕ
  windowLen : ℕ

/-- The mutable strategy state of MetaVoteStrategyV2: the named models, their
optional-valued weights (NaN-able), the bar counter retrain_c, the trade
counter trade_c, the two rolling buffers, and the reported position side.
tradesTotal is a pure observer counting every executed trade (it mirrors the
increments of trade_c but is never reset, so scenarios can count trades). -/
structure SimSt where
  models : List (String × Mdl)
  weights : List (String × Option ℚ)
  retrain_c : ℕ
  trade_c : ℕ
  tradesTotal : ℕ
  X_buf : List (List ℚ)
  y_buf : List ℚ
  pos : Pos

/-- Weight of a named model.  Model keys and weight keys coincide throughout
every run (both originate from the same key list), so the default for an
absent key is never exercised. -/
def wlookup (w : List (String × Option ℚ)) (k : String) : Option ℚ :=
  (w.lookup k).getD (some 0)

/-- MetaVoteStrategyV2._pred: the weight-weighted sum of every registered
model's prediction on the given feature vector; the empty registry yields the
empty sum 0. -/
def predEnsemble (models : List (String × Mdl)) (w : List (String × Option ℚ))
    (feats : List ℚ) : Option ℚ :=
  oSum (models.map (fun p => oMul (some (p.2 feats)) (wlookup w p.1)))

/-- Append one (feature vector, label) pair to the two rolling buffers. -/
def pushSample (cfg : Cfg) (st : SimSt) (x : List ℚ) (y : ℚ) : SimSt :=
  { st with
    X_buf := dequePush cfg.windowLen st.X_buf x,
    y_buf := dequePush cfg.windowLen st.y_buf y }

/-- The buffering step at the top of MetaVoteStrategyV2.next: when more than
one bar exists, pair the previous bar's feature row with this bar's realized
close-to-close return and push it, skipping the push when the return is NaN. -/
def bufferStage (cfg : Cfg) (st : SimSt) (closes : List (Option ℚ))
    (featsRows : List (List ℚ)) : SimSt :=
  if 1 < closes.length then
    match (pctChange closes).getD (closes.length - 1) none with
    | some lbl => pushSample cfg st (featsRows.getD (featsRows.length - 2) []) lbl
    | none => st
  else st

/-- The trading decision of MetaVoteStrategyV2.next: predict on the current
bar's feature row; go long when the signal exceeds the threshold and the
position is not already long, go short symmetrically, otherwise hold. -/
def tradeStage (cfg : Cfg) (st : SimSt) (featsRows : List (List ℚ)) : SimSt :=
  let z := predEnsemble st.models st.weights
      (featsRows.getD (featsRows.length - 1) [])
  if qGtB z cfg.threshold ∧ st.pos ≠ Pos.Long then
    { st with pos := Pos.Long, trade_c := st.trade_c + 1,
              tradesTotal := st.tradesTotal + 1 }
  else if qLtB z (-cfg.threshold) ∧ st.pos ≠ Pos.Short then
    { st with pos := Pos.Short, trade_c := st.trade_c + 1,
              tradesTotal := st.tradesTotal + 1 }
  else st

/-- The scheduled retrain of MetaVoteStrategyV2.next: increment retrain_c,
then refit every model on the full buffers when retrain_c is a multiple of
the retrain cadence and more than 500 samples are buffered (the 500 is
hardcoded in the source). -/
def retrainStage (cfg : Cfg) (fitAll : FitFn) (st : SimSt) : SimSt :=
  let st1 := { st with retrain_c := st.retrain_c + 1 }
  if st1.retrain_c % cfg.retrainEvery = 0 ∧ 500 < st1.X_buf.length then
    { st1 with models := fitAll st1.X_buf st1.y_buf }
  else st1

/-- The scheduled weight refresh of MetaVoteStrategyV2.next: when trade_c has
reached the reweight cadence, recompute the weights and reset trade_c. -/
def reweightStage (cfg : Cfg) (st : SimSt) (closes : List (Option ℚ)) : SimSt :=
  if cfg.reweightEvery ≤ st.trade_c then
    { st with weights := updateWeights st.models closes st.X_buf st.weights,
              trade_c := 0 }
  else st

/-- One call of MetaVoteStrategyV2.next on the data frame seen so far
(closes and feature rows up to and including the current bar): buffering,
then the trading decision, then the scheduled retrain, then the scheduled
reweight — in exactly the source's order. -/
def nextStep (cfg : Cfg) (fitAll : FitFn) (closes : List (Option ℚ))
    (featsRows : List (List ℚ)) (st : SimSt) : SimSt :=
  reweightStage cfg
    (retrainStage cfg fitAll
      (tradeStage cfg (bufferStage cfg st closes featsRows) featsRows))
    closes

/-- MetaVoteStrategyV2.init: the base models with uniform weights
1 / modelCount, zeroed counters, empty buffers, flat position. -/
def initState (base : List (String × Mdl)) : SimSt :=
  { models := base,
    weights := base.map (fun p => (p.1, some ((base.length : ℚ))⁻¹)),
    retrain_c := 0, trade_c := 0, tradesTotal := 0,
    X_buf := [], y_buf := [], pos := Pos.Flat }

/-- The simulation loop: process the first n bars, each call of next seeing
the data frame truncated to the bars so far. -/
def runSim (cfg : Cfg) (fitAll : FitFn) (base : List (String × Mdl))
    (closes : List (Option ℚ)) (featsRows : List (List ℚ)) : ℕ → SimSt
  | 0 => initState base
  | n + 1 =>
      nextStep cfg fitAll (closes.take (n + 1)) (featsRows.take (n + 1))
        (runSim cfg fitAll base closes featsRows n)

/-- The position side after each of the first n bars. -/
def runTrace (cfg : Cfg) (fitAll : FitFn) (base : List (String × Mdl))
    (closes : List (Option ℚ)) (featsRows : List (List ℚ)) (n : ℕ) : List Pos :=
  (List.range n).map
    (fun i => (runSim cfg fitAll base closes featsRows (i + 1)).pos)

/-! Generic facts about the bounded deque and trailing windows. -/

/-- Length of a trailing window. -/
theorem lastN_length (n : ℕ) (l : List α) :
    (lastN n l).length = l.length - (l.length - n) := by
  simp [lastN]

/-- One deque push on a trailing window extends the window. -/
theorem dequePush_lastN (cap : ℕ) (xs : List α) (x : α) :
    dequePush cap (lastN cap xs) x = lastN cap (xs ++ [x]) := by
  unfold dequePush lastN
  simp only [List.length_append, List.length_drop, List.length_singleton]
  rcases Nat.eq_zero_or_pos cap with hc | hc
  · subst hc
    simp
  rcases Nat.lt_or_ge xs.length cap with h | h
  · rw [if_neg (by omega)]
    have h0 : xs.length - cap = 0 := by omega
    have h1 : xs.length + 1 - cap = 0 := by omega
    simp [h0, h1]
  · rw [if_pos (by omega)]
    have h0 : xs.length - (xs.length - cap) + 1 - cap = 1 := by omega
    rw [h0]
    have h1 : (1 : ℕ) ≤ (xs.drop (xs.length - cap)).length := by
      simp only [List.length_drop]; omega
    rw [List.drop_append_of_le_length h1, List.drop_drop]
    have h2 : xs.length + 1 - cap ≤ xs.length := by omega
    rw [List.drop_append_of_le_length h2]
    congr 2
    omega

/-- Folding pushes from the empty deque keeps exactly the trailing window. -/
theorem foldl_dequePush (cap : ℕ) (xs : List α) :
    List.foldl (dequePush cap) [] xs = lastN cap xs := by
  induction xs using List.reverseRecOn with
  | nil => simp [lastN]
  | append_singleton ys y ih =>
      rw [List.foldl_append, List.foldl_cons, List.foldl_nil, ih, dequePush_lastN]

/-- Length after one deque push. -/
theorem dequePush_length (cap : ℕ) (l : List α) (x : α) :
    (dequePush cap l x).length = min cap (l.length + 1) := by
  unfold dequePush
  simp only [List.length_append, List.length_singleton]
  split
  · simp only [List.length_drop, List.length_append, List.length_singleton]
    omega
  · simp only [List.length_append, List.length_singleton]
    omega

/-! Which fields each stage of next can touch. -/

/-- Buffering changes nothing but the two buffers. -/
theorem bufferStage_fields (cfg : Cfg) (st : SimSt) (closes : List (Option ℚ))
    (featsRows : List (List ℚ)) :
    (bufferStage cfg st closes featsRows).models = st.models
    ∧ (bufferStage cfg st closes featsRows).weights = st.weights
    ∧ (bufferStage cfg st closes featsRows).retrain_c = st.retrain_c
    ∧ (bufferStage cfg st closes featsRows).trade_c = st.trade_c
    ∧ (bufferStage cfg st closes featsRows).tradesTotal = st.tradesTotal
    ∧ (bufferStage cfg st closes featsRows).pos = st.pos := by
  unfold bufferStage pushSample
  split
  · split <;> exact ⟨rfl, rfl, rfl, rfl, rfl, rfl⟩
  · exact ⟨rfl, rfl, rfl, rfl, rfl, rfl⟩

/-- The trading decision changes nothing but position and trade counters. -/
theorem tradeStage_fields (cfg : Cfg) (st : SimSt) (featsRows : List (List ℚ)) :
    (tradeStage cfg st featsRows).models = st.models
    ∧ (tradeStage cfg st featsRows).weights = st.weights
    ∧ (tradeStage cfg st featsRows).retrain_c = st.retrain_c
    ∧ (tradeStage cfg st featsRows).X_buf = st.X_buf
    ∧ (tradeStage cfg st featsRows).y_buf = st.y_buf := by
  unfold tradeStage
  dsimp only
  split
  · exact ⟨rfl, rfl, rfl, rfl, rfl⟩
  · split <;> exact ⟨rfl, rfl, rfl, rfl, rfl⟩

/-- The retrain step increments retrain_c, possibly replaces the models, and
changes nothing else. -/
theorem retrainStage_fields (cfg : Cfg) (fitAll : FitFn) (st : SimSt) :
    (retrainStage cfg fitAll st).weights = st.weights
    ∧ (retrainStage cfg fitAll st).retrain_c = st.retrain_c + 1
    ∧ (retrainStage cfg fitAll st).trade_c = st.trade_c
    ∧ (retrainStage cfg fitAll st).tradesTotal = st.tradesTotal
    ∧ (retrainStage cfg fitAll st).X_buf = st.X_buf
    ∧ (retrainStage cfg fitAll st).y_buf = st.y_buf
    ∧ (retrainStage cfg fitAll st).pos = st.pos := by
  unfold retrainStage
  dsimp only
  split <;> exact ⟨rfl, rfl, rfl, rfl, rfl, rfl, rfl⟩

/-- The reweight step possibly replaces weights and resets trade_c, and
changes nothing else. -/
theorem reweightStage_fields (cfg : Cfg) (st : SimSt) (closes : List (Option ℚ)) :
    (reweightStage cfg st closes).models = st.models
    ∧ (reweightStage cfg st closes).retrain_c = st.retrain_c
    ∧ (reweightStage cfg st closes).tradesTotal = st.tradesTotal
    ∧ (reweightStage cfg st closes).X_buf = st.X_buf
    ∧ (reweightStage cfg st closes).y_buf = st.y_buf
    ∧ (reweightStage cfg st closes).pos = st.pos := by
  unfold reweightStage
  split <;> exact ⟨rfl, rfl, rfl, rfl, rfl, rfl⟩

/-- The buffers after a full step are the buffers after the buffering stage. -/
theorem nextStep_buffers (cfg : Cfg) (fitAll : FitFn) (closes : List (Option ℚ))
    (featsRows : List (List ℚ)) (st : SimSt) :
    (nextStep cfg fitAll closes featsRows st).X_buf
      = (bufferStage cfg st closes featsRows).X_buf
    ∧ (nextStep cfg fitAll closes featsRows st).y_buf
      = (bufferStage cfg st closes featsRows).y_buf := by
  unfold nextStep
  constructor
  · rw [(reweightStage_fields _ _ _).2.2.2.1, (retrainStage_fields _ _ _).2.2.2.2.1,
      (tradeStage_fields _ _ _).2.2.2.1]
  · rw [(reweightStage_fields _ _ _).2.2.2.2.1, (retrainStage_fields _ _ _).2.2.2.2.2.1,
      (tradeStage_fields _ _ _).2.2.2.2]

/-! Facts about the NaN-propagating helpers. -/

/-- A NaN-free vector collects to itself. -/
theorem seqOpt_map_some (xs : List ℚ) : seqOpt (xs.map some) = some xs := by
  induction xs with
  | nil => rfl
  | cons a t ih => simp [seqOpt, ih]

/-- The NaN-propagating sum of a NaN-free vector is the plain sum. -/
theorem oSum_map_some (l : List ℚ) : oSum (l.map some) = some l.sum := by
  induction l with
  | nil => rfl
  | cons a t ih =>
      show oAdd (some a) (oSum (t.map some)) = some ((a :: t).sum)
      rw [ih]
      simp [oAdd]

/-- A vector of defined entries is a mapped plain vector. -/
theorem exists_map_some_of_all_isSome {l : List (Option ℚ)}
    (h : ∀ r ∈ l, r.isSome) : ∃ xs : List ℚ, l = xs.map some := by
  induction l with
  | nil => exact ⟨[], rfl⟩
  | cons a t ih =>
      obtain ⟨xs, hxs⟩ := ih (fun r hr => h r (List.mem_cons_of_mem _ hr))
      obtain ⟨x, hx⟩ := Option.isSome_iff_exists.mp (h a (List.mem_cons_self _ _))
      exact ⟨x :: xs, by rw [hx, hxs]; rfl⟩

/-- The NaN-propagating mean of a nonempty NaN-free vector. -/
theorem optMean_map_some (xs : List ℚ) (h : xs ≠ []) :
    optMean (xs.map some) = some (xs.sum / (xs.length : ℚ)) := by
  unfold optMean
  rw [seqOpt_map_some]
  simp [h]

/-- Every entry of an absolute-difference table is non-negative. -/
theorem zipWith_abs_nonneg (m : Mdl) (xr : List (List ℚ)) (ys : List ℚ) :
    ∀ q ∈ List.zipWith (fun x y => |m x - y|) xr ys, 0 ≤ q := by
  induction xr generalizing ys with
  | nil => intro q hq; simp at hq
  | cons x xt ih =>
      cases ys with
      | nil => intro q hq; simp at hq
      | cons y yt =>
          intro q hq
          rw [List.zipWith_cons_cons] at hq
          rcases List.mem_cons.mp hq with h | h
          · rw [h]; exact abs_nonneg _
          · exact ih yt q h

/-- On a NaN-free trailing return window, the source's MAE coincides with the
specification's buffered-label MAE. -/
theorem maeOf_map_some (m : Mdl) (xr : List (List ℚ)) (ys : List ℚ) :
    maeOf m xr (ys.map some) = maeSpecification m xr ys := by
  unfold maeOf maeSpecification
  rw [List.zipWith_map_right]
  rfl

/-- Closed form of the specification-side MAE on a nonempty table. -/
theorem maeSpecification_eq (m : Mdl) (xr : List (List ℚ)) (ys : List ℚ)
    (h : List.zipWith (fun x y => |m x - y|) xr ys ≠ []) :
    maeSpecification m xr ys
      = some ((List.zipWith (fun x y => |m x - y|) xr ys).sum
          / ((List.zipWith (fun x y => |m x - y|) xr ys).length : ℚ)) := by
  unfold maeSpecification
  have hmap : List.zipWith (fun x y => some |m x - y|) xr ys
      = (List.zipWith (fun x y => |m x - y|) xr ys).map some := by
    rw [List.map_zipWith]
  rw [hmap, optMean_map_some _ h]

/-- The specification-side MAE on a nonempty table is a defined, non-negative
value. -/
theorem maeSpecification_some_nonneg (m : Mdl) (xr : List (List ℚ)) (ys : List ℚ)
    (h : List.zipWith (fun x y => |m x - y|) xr ys ≠ []) :
    ∃ e, maeSpecification m xr ys = some e ∧ 0 ≤ e := by
  refine ⟨_, maeSpecification_eq m xr ys h, ?_⟩
  exact div_nonneg (List.sum_nonneg (zipWith_abs_nonneg m xr ys)) (by positivity)

/-- The smoothing constant is positive. -/
theorem eps_pos : 0 < eps := by norm_num [eps]

/-- The inverse-error score of a non-negative error is positive. -/
theorem invErr_pos {e : ℚ} (h : 0 ≤ e) : 0 < invErr e := by
  unfold invErr
  have : 0 < e + eps := by linarith [eps_pos]
  positivity

/-- Under a defined trailing return window and a full buffer window, the
weight update equals the some-wrapped inverse-error rule applied to the
trailing MAEs. -/
theorem updateWeights_spec (models : List (String × Mdl)) (closes : List (Option ℚ))
    (xbuf : List (List ℚ)) (w0 : List (String × Option ℚ)) (ys : List ℚ)
    (hys : lastN 60 (pctChange closes) = ys.map some)
    (hysne : ys ≠ [])
    (hx : 60 ≤ xbuf.length) :
    updateWeights models closes xbuf w0
      = List.zipWith (fun p q => (p.1, some q)) models
          (pureWeights (models.map (fun p =>
            (maeOf p.2 (lastN 60 xbuf) (lastN 60 (pctChange closes))).getD 0))) := by
  have hxrlen : (lastN 60 xbuf).length = 60 := by
    rw [lastN_length]; omega
  have hxrne : lastN 60 xbuf ≠ [] := by
    intro hc; rw [hc] at hxrlen; simp at hxrlen
  have hall : (lastN 60 (pctChange closes)).all (fun r => r.isNone) = false := by
    rw [hys]
    cases ys with
    | nil => exact absurd rfl hysne
    | cons y yt => simp
  have hlen : ¬ (lastN 60 xbuf).length < 60 := by omega
  -- per-model trailing MAE: a defined, non-negative value
  have hmae : ∀ p : String × Mdl,
      maeOf p.2 (lastN 60 xbuf) (lastN 60 (pctChange closes))
        = some ((maeOf p.2 (lastN 60 xbuf) (lastN 60 (pctChange closes))).getD 0)
      ∧ 0 ≤ (maeOf p.2 (lastN 60 xbuf) (lastN 60 (pctChange closes))).getD 0 := by
    intro p
    have hzipne : List.zipWith (fun x y => |p.2 x - y|) (lastN 60 xbuf) ys ≠ [] := by
      rw [Ne, List.zipWith_eq_nil_iff]
      push_neg
      exact ⟨hxrne, hysne⟩
    obtain ⟨e, he, hnn⟩ := maeSpecification_some_nonneg p.2 (lastN 60 xbuf) ys hzipne
    have hcode : maeOf p.2 (lastN 60 xbuf) (lastN 60 (pctChange closes)) = some e := by
      rw [hys, maeOf_map_some, he]
    rw [hcode]
    exact ⟨rfl, hnn⟩
  set errF : String × Mdl → ℚ :=
    fun p => (maeOf p.2 (lastN 60 xbuf) (lastN 60 (pctChange closes))).getD 0 with herrF
  rcases eq_or_ne models [] with hm | hm
  · subst hm
    unfold updateWeights
    dsimp only
    rw [hall]
    simp only [Bool.false_eq_true, if_false]
    rw [if_neg hlen]
    simp
  -- reduce the two guard branches
  unfold updateWeights
  dsimp only
  rw [hall]
  simp only [Bool.false_eq_true, if_false]
  rw [if_neg hlen]
  -- rewrite the mae table into its defined values
  rw [List.map_congr_left (g := fun p : String × Mdl => (p.1, some (errF p)))
    (fun p _ => by rw [(hmae p).1])]
  rw [List.map_map, List.map_map]
  have hterm : ∀ p : String × Mdl,
      ((fun p : String × Option ℚ => oInv (oAddC p.2 eps)) ∘
        (fun p : String × Mdl => (p.1, some (errF p)))) p
        = some (invErr (errF p)) := by
    intro p
    have hne0 : errF p + eps ≠ 0 := by
      have := (hmae p).2
      have := eps_pos
      intro hc
      linarith
    simp [Function.comp, oAddC, oInv, hne0, invErr]
  rw [List.map_congr_left (g := fun p : String × Mdl => some (invErr (errF p)))
    (fun p _ => hterm p)]
  have hsum : (models.map (fun p : String × Mdl => some (invErr (errF p))))
      = (models.map (fun p => invErr (errF p))).map some := by
    rw [List.map_map]; rfl
  rw [hsum, oSum_map_some]
  set T : ℚ := (models.map (fun p => invErr (errF p))).sum with hT
  have hTpos : 0 < T := by
    rw [hT]
    refine List.sum_pos _ ?_ ?_
    · intro x hx
      obtain ⟨p, _, hp⟩ := List.mem_map.mp hx
      rw [← hp]
      exact invErr_pos (hmae p).2
    · simpa using hm
  have hTne : T ≠ 0 := ne_of_gt hTpos
  have hentry : ∀ p : String × Mdl,
      ((fun p : String × Option ℚ => (p.1, oDiv (oInv (oAddC p.2 eps)) (some T))) ∘
        (fun p : String × Mdl => (p.1, some (errF p)))) p
        = (p.1, some (invErr (errF p) / T)) := by
    intro p
    have hne0 : errF p + eps ≠ 0 := by
      have := (hmae p).2
      have := eps_pos
      intro hc
      linarith
    simp [Function.comp, oAddC, oInv, oDiv, hne0, hTne, invErr]
  rw [List.map_congr_left (g := fun p : String × Mdl => (p.1, some (invErr (errF p) / T)))
    (fun p _ => hentry p)]
  -- and the right-hand side is the same map
  have hrhs : pureWeights (models.map errF)
      = models.map (fun p => invErr (errF p) / T) := by
    unfold pureWeights
    rw [List.map_map, List.map_map]
    rfl
  rw [hrhs, List.zipWith_map_right, List.zipWith_same]

/-- The trailing MAE read with default 0 is non-negative whenever the return
window is defined and both windows are nonempty. -/
theorem maeOf_getD_nonneg (m : Mdl) (xr : List (List ℚ)) (ys : List ℚ)
    (rets : List (Option ℚ)) (hys : rets = ys.map some)
    (hxrne : xr ≠ []) (hysne : ys ≠ []) : 0 ≤ (maeOf m xr rets).getD 0 := by
  have hzipne : List.zipWith (fun x y => |m x - y|) xr ys ≠ [] := by
    rw [Ne, List.zipWith_eq_nil_iff]
    push_neg
    exact ⟨hxrne, hysne⟩
  obtain ⟨e, he, hnn⟩ := maeSpecification_some_nonneg m xr ys hzipne
  rw [hys, maeOf_map_some, he]
  exact hnn

/-- The inverse-error rule yields non-negative weights that sum to 1 and are
strictly antitone in the error, given non-negative errors. -/
theorem pureWeights_props (errs : List ℚ) (hnn : ∀ e ∈ errs, 0 ≤ e)
    (hne : errs ≠ []) :
    (∀ q ∈ pureWeights errs, 0 ≤ q)
    ∧ (pureWeights errs).sum = 1
    ∧ ∀ i j, i < errs.length → j < errs.length →
        errs.getD i 0 < errs.getD j 0
        → (pureWeights errs).getD j 0 < (pureWeights errs).getD i 0 := by
  have hTpos : 0 < (errs.map invErr).sum := by
    refine List.sum_pos _ ?_ ?_
    · intro x hx
      obtain ⟨e, he, hpe⟩ := List.mem_map.mp hx
      rw [← hpe]
      exact invErr_pos (hnn e he)
    · simpa using hne
  have hTne : (errs.map invErr).sum ≠ 0 := ne_of_gt hTpos
  refine ⟨?_, ?_, ?_⟩
  · intro q hq
    obtain ⟨e, he, hpe⟩ := List.mem_map.mp hq
    rw [← hpe]
    exact le_of_lt (div_pos (invErr_pos (hnn e he)) hTpos)
  · unfold pureWeights
    have hdiv : (errs.map (fun e => invErr e / (errs.map invErr).sum))
        = errs.map (fun e => invErr e * ((errs.map invErr).sum)⁻¹) := by
      refine List.map_congr_left (fun e _ => ?_)
      rw [div_eq_mul_inv]
    rw [hdiv, List.sum_map_mul_right, mul_inv_cancel₀ hTne]
  · intro i j hi hj hlt
    have hgi : errs.getD i 0 = errs[i] := List.getD_eq_getElem errs 0 hi
    have hgj : errs.getD j 0 = errs[j] := List.getD_eq_getElem errs 0 hj
    have hwl : (pureWeights errs).length = errs.length := by
      unfold pureWeights; rw [List.length_map]
    have hwi : (pureWeights errs).getD i 0
        = invErr errs[i] / (errs.map invErr).sum := by
      rw [List.getD_eq_getElem _ 0 (by rw [hwl]; exact hi)]
      unfold pureWeights
      rw [List.getElem_map]
    have hwj : (pureWeights errs).getD j 0
        = invErr errs[j] / (errs.map invErr).sum := by
      rw [List.getD_eq_getElem _ 0 (by rw [hwl]; exact hj)]
      unfold pureWeights
      rw [List.getElem_map]
    rw [hwi, hwj]
    rw [hgi, hgj] at hlt
    refine (div_lt_div_iff_of_pos_right hTpos).2 ?_
    have hpi : 0 < errs[i] + eps := by
      have := hnn _ (errs.getElem_mem hi)
      linarith [eps_pos]
    have hpj : 0 < errs[j] + eps := by
      have := hnn _ (errs.getElem_mem hj)
      linarith [eps_pos]
    unfold invErr
    exact (inv_lt_inv₀ hpj hpi).2 (by linarith)

/-- C3 (confirmed): for every reweight that completes — the trailing return
window is nonempty and fully defined, and at least 60 samples are buffered —
the resulting weights are exactly the some-wrapped inverse-error rule
weight = (1/(mae + eps)) / sum of 1/(mae_k + eps) on the trailing MAEs; they
are all non-negative, sum to exactly 1, and a model with a strictly smaller
trailing MAE receives a strictly larger weight. -/
theorem claim3_weight_properties (models : List (String × Mdl))
    (closes : List (Option ℚ)) (xbuf : List (List ℚ))
    (w0 : List (String × Option ℚ))
    (hm : models ≠ [])
    (hx : 60 ≤ xbuf.length)
    (hne : lastN 60 (pctChange closes) ≠ [])
    (hs : ∀ r ∈ lastN 60 (pctChange closes), r.isSome) :
    updateWeights models closes xbuf w0
      = List.zipWith (fun p q => (p.1, some q)) models
          (pureWeights (models.map (fun p =>
            (maeOf p.2 (lastN 60 xbuf) (lastN 60 (pctChange closes))).getD 0)))
    ∧ (∀ q ∈ pureWeights (models.map (fun p =>
        (maeOf p.2 (lastN 60 xbuf) (lastN 60 (pctChange closes))).getD 0)), 0 ≤ q)
    ∧ (pureWeights (models.map (fun p =>
        (maeOf p.2 (lastN 60 xbuf) (lastN 60 (pctChange closes))).getD 0))).sum = 1
    ∧ ∀ i j, i < models.length → j < models.length →
        (models.map (fun p =>
          (maeOf p.2 (lastN 60 xbuf) (lastN 60 (pctChange closes))).getD 0)).getD i 0
          < (models.map (fun p =>
              (maeOf p.2 (lastN 60 xbuf) (lastN 60 (pctChange closes))).getD 0)).getD j 0
        → (pureWeights (models.map (fun p =>
            (maeOf p.2 (lastN 60 xbuf) (lastN 60 (pctChange closes))).getD 0))).getD j 0
          < (pureWeights (models.map (fun p =>
              (maeOf p.2 (lastN 60 xbuf) (lastN 60 (pctChange closes))).getD 0))).getD i 0 := by
  obtain ⟨ys, hys⟩ := exists_map_some_of_all_isSome hs
  have hysne : ys ≠ [] := by
    intro hc
    rw [hc] at hys
    exact hne (by simpa using hys)
  have hxrlen : (lastN 60 xbuf).length = 60 := by
    rw [lastN_length]; omega
  have hxrne : lastN 60 xbuf ≠ [] := by
    intro hc; rw [hc] at hxrlen; simp at hxrlen
  have hennn : ∀ e ∈ models.map (fun p =>
      (maeOf p.2 (lastN 60 xbuf) (lastN 60 (pctChange closes))).getD 0), 0 ≤ e := by
    intro e he
    obtain ⟨p, _, hpe⟩ := List.mem_map.mp he
    rw [← hpe]
    exact maeOf_getD_nonneg p.2 (lastN 60 xbuf) ys _ hys hxrne hysne
  have henne : models.map (fun p =>
      (maeOf p.2 (lastN 60 xbuf) (lastN 60 (pctChange closes))).getD 0) ≠ [] := by
    simpa using hm
  obtain ⟨h1, h2, h3⟩ := pureWeights_props _ hennn henne
  refine ⟨updateWeights_spec models closes xbuf w0 ys hys hysne hx, h1, h2, ?_⟩
  intro i j hi hj
  exact h3 i j (by simpa using hi) (by simpa using hj)

/-- Concrete single-model registry for the C3 witness. -/
def wmodels : List (String × Mdl) := [("a", fun f => f.getD 0 0)]

/-- Concrete defined close series for the C3 witness. -/
def wcloses : List (Option ℚ) := List.replicate 61 (some 1)

/-- Concrete 60-row feature buffer for the C3 witness. -/
def wxbuf : List (List ℚ) := List.replicate 60 [0]

/-- Witness for C3 at a concrete single-model state: 61 defined closes, a
60-row buffer. -/
theorem claim3_weight_properties_witness :
    updateWeights wmodels wcloses wxbuf []
      = List.zipWith (fun p q => (p.1, some q)) wmodels
          (pureWeights (wmodels.map (fun p =>
            (maeOf p.2 (lastN 60 wxbuf) (lastN 60 (pctChange wcloses))).getD 0)))
    ∧ (∀ q ∈ pureWeights (wmodels.map (fun p =>
        (maeOf p.2 (lastN 60 wxbuf) (lastN 60 (pctChange wcloses))).getD 0)), 0 ≤ q)
    ∧ (pureWeights (wmodels.map (fun p =>
        (maeOf p.2 (lastN 60 wxbuf) (lastN 60 (pctChange wcloses))).getD 0))).sum = 1
    ∧ ∀ i j, i < wmodels.length → j < wmodels.length →
        (wmodels.map (fun p =>
          (maeOf p.2 (lastN 60 wxbuf) (lastN 60 (pctChange wcloses))).getD 0)).getD i 0
          < (wmodels.map (fun p =>
              (maeOf p.2 (lastN 60 wxbuf) (lastN 60 (pctChange wcloses))).getD 0)).getD j 0
        → (pureWeights (wmodels.map (fun p =>
            (maeOf p.2 (lastN 60 wxbuf) (lastN 60 (pctChange wcloses))).getD 0))).getD j 0
          < (pureWeights (wmodels.map (fun p =>
              (maeOf p.2 (lastN 60 wxbuf) (lastN 60 (pctChange wcloses))).getD 0))).getD i 0 :=
  claim3_weight_properties wmodels wcloses wxbuf []
    (by simp [wmodels]) (by simp [wxbuf]) (by decide) (by decide)

/-- A retrain that fires replaces the models with a fit on the full buffers. -/
theorem retrainStage_fire (cfg : Cfg) (fitAll : FitFn) (st : SimSt)
    (h1 : (st.retrain_c + 1) % cfg.retrainEvery = 0)
    (h2 : 500 < st.X_buf.length) :
    (retrainStage cfg fitAll st).models = fitAll st.X_buf st.y_buf := by
  unfold retrainStage
  dsimp only
  rw [if_pos ⟨h1, h2⟩]

/-- A reweight that does not fire leaves the state unchanged. -/
theorem reweightStage_skip (cfg : Cfg) (st : SimSt) (closes : List (Option ℚ))
    (h : st.trade_c < cfg.reweightEvery) :
    reweightStage cfg st closes = st := by
  unfold reweightStage
  rw [if_neg (by omega)]

/-- A reweight that fires recomputes the weights from the state's models. -/
theorem reweightStage_fire (cfg : Cfg) (st : SimSt) (closes : List (Option ℚ))
    (h : cfg.reweightEvery ≤ st.trade_c) :
    (reweightStage cfg st closes).weights
      = updateWeights st.models closes st.X_buf st.weights := by
  unfold reweightStage
  rw [if_pos h]

/-- A bar whose label pushes keeps the two buffer lengths equal. -/
theorem bufferStage_len_eq (cfg : Cfg) (st : SimSt) (closes : List (Option ℚ))
    (featsRows : List (List ℚ)) (h : st.X_buf.length = st.y_buf.length) :
    (bufferStage cfg st closes featsRows).X_buf.length
      = (bufferStage cfg st closes featsRows).y_buf.length := by
  unfold bufferStage pushSample
  split
  · split
    · dsimp only
      rw [dequePush_length, dequePush_length, h]
    · exact h
  · exact h

/-- C6 (confirmed): for every capacity and every push sequence, the rolling
buffer holds at most capacity-many samples and is exactly the trailing
(hence contiguous temporal) suffix of everything ever pushed; with capacity
5 and pushes labelled 1..8 the buffer is [4,5,6,7,8]. -/
theorem claim6_buffer_capacity_suffix (cap : ℕ) (xs : List ℚ) :
    (List.foldl (dequePush cap) [] xs).length ≤ cap
    ∧ List.foldl (dequePush cap) [] xs <:+ xs
    ∧ List.foldl (dequePush cap) [] xs = xs.drop (xs.length - cap)
    ∧ List.foldl (dequePush 5) ([] : List ℚ) [1, 2, 3, 4, 5, 6, 7, 8]
        = [4, 5, 6, 7, 8] := by
  refine ⟨?_, ?_, ?_, by decide⟩
  · rw [foldl_dequePush, lastN_length]; omega
  · rw [foldl_dequePush]; exact List.drop_suffix _ _
  · rw [foldl_dequePush]; rfl

/-- Default configuration of the notebook scenarios: threshold 0, retrain
every 360 bars, reweight every 60 trades, window 10000. -/
def coldCfg : Cfg :=
  { threshold := 0, retrainEvery := 360, reweightEvery := 60, windowLen := 10000 }

/-- An opaque refit result used by the concrete scenarios: models that
predict the constant 7, observably different from the initial models. -/
def fitSeven : FitFn := fun _ _ => [("m1", fun _ => 7), ("m2", fun _ => 7)]

/-- Two-model registry whose ensemble prediction passes the first feature
through (each model predicts the first feature; uniform weights average). -/
def coldBase : List (String × Mdl) :=
  [("m1", fun f => f.getD 0 0), ("m2", fun f => f.getD 0 0)]

/-- Five bars of defined prices for the cold-start scenario. -/
def coldCloses : List (Option ℚ) := [some 1, some 1, some 1, some 1, some 1]

/-- The five feature rows that make the ensemble predict 0.1, -0.2, 0.05,
0.3, -0.1 on the five bars. -/
def coldFeats : List (List ℚ) :=
  [[1/10], [-1/5], [1/20], [3/10], [-1/10]]

set_option maxRecDepth 8000 in
/-- C7 (confirmed): cold start with two models at uniform weights 1/2; the
five predictions 0.1, -0.2, 0.05, 0.3, -0.1 at threshold 0 drive the
position through Long, Short, Long, Long (no change), Short, and exactly 4
trades execute. -/
theorem claim7_cold_start_scenario :
    (runSim coldCfg fitSeven coldBase coldCloses coldFeats 0).weights
      = [("m1", some (1/2)), ("m2", some (1/2))]
    ∧ runTrace coldCfg fitSeven coldBase coldCloses coldFeats 5
      = [Pos.Long, Pos.Short, Pos.Long, Pos.Long, Pos.Short]
    ∧ (runSim coldCfg fitSeven coldBase coldCloses coldFeats 5).tradesTotal = 4 := by
  decide

/-- C8 (confirmed): on a bar i > 0 whose realized return is undefined, the
buffering step leaves the whole state unchanged and the bar is processed as
the remaining pipeline on the prior state — the error is absorbed, not
propagated. -/
theorem claim8_nan_label_skips_push (cfg : Cfg) (fitAll : FitFn)
    (closes : List (Option ℚ)) (featsRows : List (List ℚ)) (st : SimSt)
    (h1 : 1 < closes.length)
    (h2 : (pctChange closes).getD (closes.length - 1) none = none) :
    bufferStage cfg st closes featsRows = st
    ∧ nextStep cfg fitAll closes featsRows st
      = reweightStage cfg (retrainStage cfg fitAll (tradeStage cfg st featsRows))
          closes := by
  have hb : bufferStage cfg st closes featsRows = st := by
    unfold bufferStage
    rw [if_pos h1, h2]
  exact ⟨hb, by unfold nextStep; rw [hb]⟩

/-- Two bars whose second close is missing, so the realized return is NaN. -/
def nanCloses : List (Option ℚ) := [some 1, none]

/-- Feature rows for the two NaN-label bars. -/
def nanFeats : List (List ℚ) := [[1], [1]]

/-- A state with nonempty buffers, to observe that the NaN bar pushes
nothing. -/
def nanSt : SimSt :=
  { models := [("m", fun _ => 1)], weights := [("m", some 1)],
    retrain_c := 0, trade_c := 0, tradesTotal := 0,
    X_buf := [[5]], y_buf := [5], pos := Pos.Flat }

/-- Witness for C8 on the concrete NaN-return bar. -/
theorem claim8_nan_label_skips_push_witness :
    bufferStage coldCfg nanSt nanCloses nanFeats = nanSt
    ∧ nextStep coldCfg (fun _ _ => []) nanCloses nanFeats nanSt
      = reweightStage coldCfg
          (retrainStage coldCfg (fun _ _ => []) (tradeStage coldCfg nanSt nanFeats))
          nanCloses :=
  claim8_nan_label_skips_push coldCfg (fun _ _ => []) nanCloses nanFeats nanSt
    (by decide) (by decide)

/-- C10 (confirmed): after any number of processed bars the feature buffer
and the label buffer have the same length — features and labels are pushed
together into deques of the same capacity — so every retrain batch has
matching feature and label row counts. -/
theorem claim10_buffer_lengths_equal (cfg : Cfg) (fitAll : FitFn)
    (base : List (String × Mdl)) (closes : List (Option ℚ))
    (featsRows : List (List ℚ)) (n : ℕ) :
    (runSim cfg fitAll base closes featsRows n).X_buf.length
      = (runSim cfg fitAll base closes featsRows n).y_buf.length := by
  induction n with
  | zero => rfl
  | succ n ih =>
      simp only [runSim]
      obtain ⟨hX, hY⟩ := nextStep_buffers cfg fitAll (closes.take (n + 1))
        (featsRows.take (n + 1)) (runSim cfg fitAll base closes featsRows n)
      rw [hX, hY]
      exact bufferStage_len_eq _ _ _ _ ih

/-- A refit result for the retrain counterexamples: models named a, b that
predict the constant 7, observably distinct from the pre-retrain models. -/
def fitC1 : FitFn := fun _ _ => [("a", fun _ => 7), ("b", fun _ => 7)]

/-- Configuration that retrains every bar and reweights only after 1000
trades. -/
def cfgC1 : Cfg :=
  { threshold := 0, retrainEvery := 1, reweightEvery := 1000, windowLen := 10000 }

/-- A reachable state with 501 buffered samples and deliberately non-uniform
weights 3/4, 1/4 (as left by an earlier reweight). -/
def stC1 : SimSt :=
  { models := [("a", fun _ => 0), ("b", fun _ => 0)],
    weights := [("a", some (3/4)), ("b", some (1/4))],
    retrain_c := 0, trade_c := 0, tradesTotal := 0,
    X_buf := List.replicate 501 [0], y_buf := List.replicate 501 0,
    pos := Pos.Flat }

/-- Two bars of defined unit prices. -/
def closes2b : List (Option ℚ) := [some 1, some 1]

/-- Two zero feature rows. -/
def feats2b : List (List ℚ) := [[0], [0]]

set_option maxRecDepth 8000 in
/-- Counterexample to C1: on a bar where the scheduled retrain fires and is
executed (models demonstrably replaced), the weights afterwards are still
the non-uniform 3/4, 1/4 — not the uniform 1/modelCount = 1/2, 1/2 the claim
asserts. -/
theorem claim1_uniform_reset_counterexample :
    ((bufferStage cfgC1 stC1 closes2b feats2b).retrain_c + 1) % cfgC1.retrainEvery = 0
    ∧ 500 < (bufferStage cfgC1 stC1 closes2b feats2b).X_buf.length
    ∧ (nextStep cfgC1 fitC1 closes2b feats2b stC1).models.map (fun p => p.2 [])
        = [7, 7]
    ∧ (nextStep cfgC1 fitC1 closes2b feats2b stC1).weights
        = [("a", some (3/4)), ("b", some (1/4))]
    ∧ (nextStep cfgC1 fitC1 closes2b feats2b stC1).weights
        ≠ (nextStep cfgC1 fitC1 closes2b feats2b stC1).models.map
            (fun p => (p.1,
              some (((nextStep cfgC1 fitC1 closes2b feats2b stC1).models.length : ℚ)⁻¹))) := by
  decide

/-- C1 (corrected): a scheduled retrain replaces every model by a fit on the
full buffers but leaves the ensemble weights exactly as they were — it does
not reset them to uniform; weights change only through the reweight step
(absent on this bar). -/
theorem claim1_retrain_preserves_weights (cfg : Cfg) (fitAll : FitFn)
    (closes : List (Option ℚ)) (featsRows : List (List ℚ)) (st : SimSt)
    (h1 : (st.retrain_c + 1) % cfg.retrainEvery = 0)
    (h2 : 500 < (bufferStage cfg st closes featsRows).X_buf.length)
    (h3 : (tradeStage cfg (bufferStage cfg st closes featsRows) featsRows).trade_c
        < cfg.reweightEvery) :
    (nextStep cfg fitAll closes featsRows st).models
      = fitAll (bufferStage cfg st closes featsRows).X_buf
          (bufferStage cfg st closes featsRows).y_buf
    ∧ (nextStep cfg fitAll closes featsRows st).weights = st.weights := by
  have hB := bufferStage_fields cfg st closes featsRows
  have hT := tradeStage_fields cfg (bufferStage cfg st closes featsRows) featsRows
  have hR := retrainStage_fields cfg fitAll
    (tradeStage cfg (bufferStage cfg st closes featsRows) featsRows)
  have hskip : reweightStage cfg
      (retrainStage cfg fitAll
        (tradeStage cfg (bufferStage cfg st closes featsRows) featsRows)) closes
      = retrainStage cfg fitAll
          (tradeStage cfg (bufferStage cfg st closes featsRows) featsRows) := by
    apply reweightStage_skip
    rw [hR.2.2.1]
    exact h3
  unfold nextStep
  rw [hskip]
  constructor
  · rw [retrainStage_fire _ _ _ (by rw [hT.2.2.1, hB.2.2.1]; exact h1)
      (by rw [hT.2.2.2.1]; exact h2)]
    rw [hT.2.2.2.1, hT.2.2.2.2]
  · rw [hR.1, hT.2.1, hB.2.1]

set_option maxRecDepth 8000 in
/-- Witness for C1 as corrected, at the concrete retrain bar of the
counterexample state. -/
theorem claim1_retrain_preserves_weights_witness :
    (nextStep cfgC1 fitC1 closes2b feats2b stC1).models
      = fitC1 (bufferStage cfgC1 stC1 closes2b feats2b).X_buf
          (bufferStage cfgC1 stC1 closes2b feats2b).y_buf
    ∧ (nextStep cfgC1 fitC1 closes2b feats2b stC1).weights = stC1.weights :=
  claim1_retrain_preserves_weights cfgC1 fitC1 closes2b feats2b stC1
    (by decide) (by decide) (by decide)

/-- Configuration with a 3-bar retrain cadence for the counter scenario. -/
def cfgC4 : Cfg :=
  { threshold := 0, retrainEvery := 3, reweightEvery := 1000, windowLen := 10000 }

/-- A reachable state two bars after the last retrain boundary, with a full
buffer. -/
def stC4 : SimSt :=
  { models := [("a", fun _ => 0), ("b", fun _ => 0)],
    weights := [("a", some (1/2)), ("b", some (1/2))],
    retrain_c := 2, trade_c := 0, tradesTotal := 0,
    X_buf := List.replicate 501 [0], y_buf := List.replicate 501 0,
    pos := Pos.Flat }

set_option maxRecDepth 8000 in
/-- Counterexample to C4: with retrainInterval = 3, on the bar where the
retrain fires and is executed (models demonstrably replaced), the bar counter
afterwards is 3, not 0 — the source never resets retrain_c. -/
theorem claim4_reset_counterexample :
    ((bufferStage cfgC4 stC4 closes2b feats2b).retrain_c + 1) % cfgC4.retrainEvery = 0
    ∧ 500 < (bufferStage cfgC4 stC4 closes2b feats2b).X_buf.length
    ∧ (nextStep cfgC4 fitC1 closes2b feats2b stC4).models.map (fun p => p.2 [])
        = [7, 7]
    ∧ (nextStep cfgC4 fitC1 closes2b feats2b stC4).retrain_c = 3
    ∧ (nextStep cfgC4 fitC1 closes2b feats2b stC4).retrain_c ≠ 0 := by
  decide

/-- C4 (corrected): the bar counter is never reset — after every bar it is
the previous value plus one; on a bar whose retrain fires the counter is a
positive multiple of the retrain interval (its value mod the interval is 0,
but the counter itself is nonzero). -/
theorem claim4_counter_after_retrain (cfg : Cfg) (fitAll : FitFn)
    (closes : List (Option ℚ)) (featsRows : List (List ℚ)) (st : SimSt)
    (h1 : (st.retrain_c + 1) % cfg.retrainEvery = 0)
    (h2 : 500 < (bufferStage cfg st closes featsRows).X_buf.length) :
    (nextStep cfg fitAll closes featsRows st).retrain_c = st.retrain_c + 1
    ∧ (nextStep cfg fitAll closes featsRows st).retrain_c % cfg.retrainEvery = 0
    ∧ 0 < (nextStep cfg fitAll closes featsRows st).retrain_c := by
  have hB := bufferStage_fields cfg st closes featsRows
  have hT := tradeStage_fields cfg (bufferStage cfg st closes featsRows) featsRows
  have hR := retrainStage_fields cfg fitAll
    (tradeStage cfg (bufferStage cfg st closes featsRows) featsRows)
  have hW := reweightStage_fields cfg
    (retrainStage cfg fitAll
      (tradeStage cfg (bufferStage cfg st closes featsRows) featsRows)) closes
  have hc : (nextStep cfg fitAll closes featsRows st).retrain_c = st.retrain_c + 1 := by
    unfold nextStep
    rw [hW.2.1, hR.2.1, hT.2.2.1, hB.2.2.1]
  refine ⟨hc, by rw [hc]; exact h1, by rw [hc]; omega⟩

set_option maxRecDepth 8000 in
/-- Witness for C4 as corrected, at the concrete 3-bar-cadence retrain. -/
theorem claim4_counter_after_retrain_witness :
    (nextStep cfgC4 fitC1 closes2b feats2b stC4).retrain_c = stC4.retrain_c + 1
    ∧ (nextStep cfgC4 fitC1 closes2b feats2b stC4).retrain_c % cfgC4.retrainEvery = 0
    ∧ 0 < (nextStep cfgC4 fitC1 closes2b feats2b stC4).retrain_c :=
  claim4_counter_after_retrain cfgC4 fitC1 closes2b feats2b stC4
    (by decide) (by decide)

/-- A zero ensemble signal at a non-negative threshold makes no trade. -/
theorem tradeStage_noop (cfg : Cfg) (st : SimSt) (featsRows : List (List ℚ))
    (hz : predEnsemble st.models st.weights
        (featsRows.getD (featsRows.length - 1) []) = some 0)
    (ht : 0 ≤ cfg.threshold) :
    tradeStage cfg st featsRows = st := by
  unfold tradeStage
  dsimp only
  rw [hz]
  have hg : qGtB (some 0) cfg.threshold = false := by
    unfold qGtB
    exact decide_eq_false (not_lt.2 ht)
  have hl : qLtB (some 0) (-cfg.threshold) = false := by
    unfold qLtB
    exact decide_eq_false (not_lt.2 (neg_nonpos.2 ht))
  rw [if_neg (by rw [hg]; simp), if_neg (by rw [hl]; simp)]

/-- C5 (corrected): with an empty model registry the ensemble prediction is
the empty weighted sum, a defined value 0 — no error is raised — and with a
non-negative neutral threshold the bar makes no position transition and
executes no trade. -/
theorem claim5_empty_registry_neutral (cfg : Cfg) (fitAll : FitFn)
    (closes : List (Option ℚ)) (featsRows : List (List ℚ)) (st : SimSt)
    (hm : st.models = []) (ht : 0 ≤ cfg.threshold) :
    predEnsemble st.models st.weights
        (featsRows.getD (featsRows.length - 1) []) = some 0
    ∧ (nextStep cfg fitAll closes featsRows st).pos = st.pos
    ∧ (nextStep cfg fitAll closes featsRows st).tradesTotal = st.tradesTotal := by
  have hB := bufferStage_fields cfg st closes featsRows
  have hpred : predEnsemble st.models st.weights
      (featsRows.getD (featsRows.length - 1) []) = some 0 := by
    rw [hm]; rfl
  have hpredB : predEnsemble (bufferStage cfg st closes featsRows).models
      (bufferStage cfg st closes featsRows).weights
      (featsRows.getD (featsRows.length - 1) []) = some 0 := by
    rw [hB.1, hB.2.1, hm]; rfl
  have htr : tradeStage cfg (bufferStage cfg st closes featsRows) featsRows
      = bufferStage cfg st closes featsRows :=
    tradeStage_noop cfg _ featsRows hpredB ht
  have hR := retrainStage_fields cfg fitAll (bufferStage cfg st closes featsRows)
  have hW := reweightStage_fields cfg
    (retrainStage cfg fitAll (bufferStage cfg st closes featsRows)) closes
  refine ⟨hpred, ?_, ?_⟩
  · unfold nextStep
    rw [htr, hW.2.2.2.2.2, hR.2.2.2.2.2.2, hB.2.2.2.2.2]
  · unfold nextStep
    rw [htr, hW.2.2.1, hR.2.2.2.1, hB.2.2.2.2.1]

/-- The empty-registry state. -/
def emptySt : SimSt := initState []

/-- A single bar of defined price. -/
def oneCloses : List (Option ℚ) := [some 1]

/-- A single feature row. -/
def oneFeats : List (List ℚ) := [[1]]

/-- Counterexample to C5: with an empty registry the prediction request does
not fail — it returns the defined value 0 — while the bar indeed makes no
transition and counts no trade. -/
theorem claim5_no_error_counterexample :
    emptySt.models = []
    ∧ predEnsemble emptySt.models emptySt.weights
        (oneFeats.getD (oneFeats.length - 1) []) = some 0
    ∧ (nextStep coldCfg (fun _ _ => []) oneCloses oneFeats emptySt).pos = Pos.Flat
    ∧ (nextStep coldCfg (fun _ _ => []) oneCloses oneFeats emptySt).tradesTotal
        = 0 := by
  exact ⟨rfl, rfl, by decide, by decide⟩

/-- Witness for C5 as corrected, at the concrete empty-registry bar. -/
theorem claim5_empty_registry_neutral_witness :
    predEnsemble emptySt.models emptySt.weights
        (oneFeats.getD (oneFeats.length - 1) []) = some 0
    ∧ (nextStep coldCfg (fun _ _ => []) oneCloses oneFeats emptySt).pos = emptySt.pos
    ∧ (nextStep coldCfg (fun _ _ => []) oneCloses oneFeats emptySt).tradesTotal
        = emptySt.tradesTotal :=
  claim5_empty_registry_neutral coldCfg (fun _ _ => []) oneCloses oneFeats emptySt
    rfl (by decide)

/-- C9 (confirmed): on a bar where the retrain trigger and the reweight
trigger both fire, the models are replaced first and that bar's reweight is
computed from the freshly retrained models (and the post-push buffer), never
from the pre-retrain models. -/
theorem claim9_retrain_before_reweight (cfg : Cfg) (fitAll : FitFn)
    (closes : List (Option ℚ)) (featsRows : List (List ℚ)) (st : SimSt)
    (h1 : (st.retrain_c + 1) % cfg.retrainEvery = 0)
    (h2 : 500 < (bufferStage cfg st closes featsRows).X_buf.length)
    (h3 : cfg.reweightEvery
        ≤ (tradeStage cfg (bufferStage cfg st closes featsRows) featsRows).trade_c) :
    (nextStep cfg fitAll closes featsRows st).models
      = fitAll (bufferStage cfg st closes featsRows).X_buf
          (bufferStage cfg st closes featsRows).y_buf
    ∧ (nextStep cfg fitAll closes featsRows st).weights
      = updateWeights
          (fitAll (bufferStage cfg st closes featsRows).X_buf
            (bufferStage cfg st closes featsRows).y_buf)
          closes (bufferStage cfg st closes featsRows).X_buf st.weights := by
  have hB := bufferStage_fields cfg st closes featsRows
  have hT := tradeStage_fields cfg (bufferStage cfg st closes featsRows) featsRows
  have hR := retrainStage_fields cfg fitAll
    (tradeStage cfg (bufferStage cfg st closes featsRows) featsRows)
  have hmodels : (retrainStage cfg fitAll
      (tradeStage cfg (bufferStage cfg st closes featsRows) featsRows)).models
      = fitAll (bufferStage cfg st closes featsRows).X_buf
          (bufferStage cfg st closes featsRows).y_buf := by
    rw [retrainStage_fire _ _ _ (by rw [hT.2.2.1, hB.2.2.1]; exact h1)
      (by rw [hT.2.2.2.1]; exact h2)]
    rw [hT.2.2.2.1, hT.2.2.2.2]
  have hfire : cfg.reweightEvery ≤ (retrainStage cfg fitAll
      (tradeStage cfg (bufferStage cfg st closes featsRows) featsRows)).trade_c := by
    rw [hR.2.2.1]; exact h3
  have hW := reweightStage_fields cfg
    (retrainStage cfg fitAll
      (tradeStage cfg (bufferStage cfg st closes featsRows) featsRows)) closes
  constructor
  · unfold nextStep
    rw [hW.1, hmodels]
  · unfold nextStep
    rw [reweightStage_fire _ _ _ hfire, hmodels, hR.2.2.2.2.1, hT.2.2.2.1,
      hR.1, hT.2.1, hB.2.1]

/-- Configuration that retrains every bar and reweights at 60 trades. -/
def cfgC9 : Cfg :=
  { threshold := 0, retrainEvery := 1, reweightEvery := 60, windowLen := 10000 }

/-- A reachable state with 60 pending trades and a full buffer, so retrain
and reweight fire on the same bar. -/
def stC9 : SimSt :=
  { models := [("a", fun _ => 0)], weights := [("a", some 1)],
    retrain_c := 0, trade_c := 60, tradesTotal := 60,
    X_buf := List.replicate 501 [0], y_buf := List.replicate 501 0,
    pos := Pos.Flat }

set_option maxRecDepth 8000 in
/-- Witness for C9 at a concrete bar where both triggers fire. -/
theorem claim9_retrain_before_reweight_witness :
    (nextStep cfgC9 fitC1 closes2b feats2b stC9).models
      = fitC1 (bufferStage cfgC9 stC9 closes2b feats2b).X_buf
          (bufferStage cfgC9 stC9 closes2b feats2b).y_buf
    ∧ (nextStep cfgC9 fitC1 closes2b feats2b stC9).weights
      = updateWeights
          (fitC1 (bufferStage cfgC9 stC9 closes2b feats2b).X_buf
            (bufferStage cfgC9 stC9 closes2b feats2b).y_buf)
          closes2b (bufferStage cfgC9 stC9 closes2b feats2b).X_buf stC9.weights :=
  claim9_retrain_before_reweight cfgC9 fitC1 closes2b feats2b stC9
    (by decide) (by decide) (by decide)

/-- Configuration that reweights after every single trade. -/
def cfgN : Cfg :=
  { threshold := 0, retrainEvery := 360, reweightEvery := 1, windowLen := 10000 }

/-- Single-model registry passing the first feature through. -/
def baseN : List (String × Mdl) := [("m", fun f => f.getD 0 0)]

/-- 66 bars of unit prices with the close of bar 63 missing, so the returns
of bars 63 and 64 are undefined and sit inside the final 60-bar window. -/
def closesN : List (Option ℚ) :=
  (List.range 66).map (fun i => if i = 63 then none else some 1)

/-- Feature rows that keep the signal long until bar 65 flips it short,
forcing a trade — and hence a reweight — on bar 65. -/
def featsN : List (List ℚ) :=
  (List.range 66).map (fun i => if i = 65 then [-1] else [1])

/-- The state at bar 65 right after its buffering step: the exact state the
bar-65 reweight invocation reads. -/
def stN : SimSt :=
  bufferStage cfgN (runSim cfgN fitSeven baseN closesN featsN 65) closesN featsN

set_option maxRecDepth 100000 in
/-- Counterexample to C2: at the reachable bar-65 reweight invocation (trade
counter at cadence, return window not all-NaN, 60 buffered rows), the MAE
the source computes — against the trailing close percent-change window — is
NaN (none), while the MAE against the labels stored with the trailing
buffered samples is the defined value 1; the run's weights after bar 65 are
NaN. -/
theorem claim2_buffered_labels_counterexample :
    cfgN.reweightEvery ≤ (tradeStage cfgN stN featsN).trade_c
    ∧ ((lastN 60 (pctChange closesN)).all (fun r => r.isNone)) = false
    ∧ ¬ (lastN 60 stN.X_buf).length < 60
    ∧ maeOf (fun f => f.getD 0 0) (lastN 60 stN.X_buf)
        (lastN 60 (pctChange closesN)) = none
    ∧ maeSpecification (fun f => f.getD 0 0) (lastN 60 stN.X_buf)
        (lastN 60 stN.y_buf) = some 1
    ∧ (runSim cfgN fitSeven baseN closesN featsN 66).weights = [("m", none)] := by
  decide

/-- C2 (corrected): the source computes each model's trailing MAE against
the trailing slice of the close percent-change series, not against the
buffered labels; the two computations coincide exactly when that return
window equals the some-wrapped trailing buffered labels (in particular on
every window with no undefined return and no skipped push). -/
theorem claim2_mae_refinement (m : Mdl) (xr : List (List ℚ))
    (rets : List (Option ℚ)) (ys : List ℚ) (h : rets = ys.map some) :
    maeOf m xr rets = maeSpecification m xr ys := by
  rw [h]
  exact maeOf_map_some m xr ys

/-- Witness for C2 as corrected, on a defined one-entry window. -/
theorem claim2_mae_refinement_witness :
    maeOf (fun _ => (0 : ℚ)) [[1]] [some 2]
      = maeSpecification (fun _ => (0 : ℚ)) [[1]] [2] :=
  claim2_mae_refinement (fun _ => (0 : ℚ)) [[1]] [some 2] [2] rfl
